import Mathlib

/-!
Shallow embedding of the twobit codec (package twobit: twobit.go and its
const definitions).  Byte strings are modelled as lists of naturals
(each element a byte value below 256); sequences of DNA symbols are also
lists of naturals holding the ASCII codes of the base characters.
The stateful seek-and-read pattern of the Go reader is modelled by
passing the byte stream that starts at the reader position reached
after the record metadata has been parsed: a relative seek is a drop,
a sequential read is a take.  Go map iteration over the block maps is
modelled by iterating a list of (start, count) pairs; every overlay
result proved here is independent of that order.  A Go runtime panic
(out-of-range slice write) and a failed binary.Read are modelled as
error outcomes of the enclosing operation.
-/

namespace Twobit

/-- ASCII code of the character N. -/
def BASE_N : Nat := 78

/-- ASCII code of the character T. -/
def BASE_T : Nat := 84

/-- ASCII code of the character C. -/
def BASE_C : Nat := 67

/-- ASCII code of the character A. -/
def BASE_A : Nat := 65

/-- ASCII code of the character G. -/
def BASE_G : Nat := 71

/-- The 2bit signature constant SIG from const.go. -/
def SIG : Nat := 0x1A412743

/-- BYTES2NT from the const definitions: the map from a 2-bit code to the
ASCII code of its base character, 0 to T, 1 to C, 2 to A, 3 to G.  The
code argument is always reduced modulo 4 by the callers (the Go sources
index with base and 0x3). -/
def BYTES2NT (v : Nat) : Nat :=
  if v = 0 then BASE_T
  else if v = 1 then BASE_C
  else if v = 2 then BASE_A
  else BASE_G

/-- NT2BYTES from the const definitions: the partial map from the ASCII
code of a base character to its 2-bit code.  N, T (and their lowercase
forms) map to 0, C to 1, A to 2, G to 3; every other byte value is
absent from the map (none). -/
def NT2BYTES (c : Nat) : Option Nat :=
  if c = BASE_N then some 0
  else if c = BASE_T then some 0
  else if c = BASE_C then some 1
  else if c = BASE_A then some 2
  else if c = BASE_G then some 3
  else if c = BASE_N + 32 then some 0
  else if c = BASE_T + 32 then some 0
  else if c = BASE_C + 32 then some 1
  else if c = BASE_A + 32 then some 2
  else if c = BASE_G + 32 then some 3
  else none

/-- packedSize from twobit.go: the size in packed bytes of a dna
sequence, four bases per byte, (dnaSize + 3) >> 2. -/
def packedSize (dnaSize : Nat) : Nat :=
  (dnaSize + 3) / 4

/-- One step of the byte-decoding loop of Unpack and ReadRange: a byte
becomes the four base characters of its four 2-bit slots, the
highest-order 2 bits first (the Go loop fills buf from index 3 down
while shifting the byte right). -/
def byteToNTs (b : Nat) : List Nat :=
  [BYTES2NT (b / 64 % 4), BYTES2NT (b / 16 % 4), BYTES2NT (b / 4 % 4), BYTES2NT (b % 4)]

/-- Unpack from twobit.go: decode every byte into 4 symbols, concatenate,
truncate to sz.  The Go slice dna.Bytes()[0:sz] demands sz to be at most
four times the byte count; every use below satisfies that bound, and the
model truncates. -/
def Unpack (raw : List Nat) (sz : Nat) : List Nat :=
  ((raw.map byteToNTs).flatten).take sz

/-- The value packed for slot j of a group of four: the code of the
sequence symbol at that slot, or the filler NT2BYTES of T (that is 0)
past the end of the sequence.  Mirrors the inner loop of Pack where
val starts as the code of T and is replaced while idx < sz. -/
def slotVal (g : List Nat) (j : Nat) : Option Nat :=
  match g.get? j with
  | none => some 0
  | some c => NT2BYTES c

/-- One output byte of Pack: four slot codes, the first in the
highest-order 2 bits (the Go loop shifts b left by 2 and adds each
code). -/
def packChunk (g : List Nat) : Option Nat := do
  let a ← slotVal g 0
  let b ← slotVal g 1
  let c ← slotVal g 2
  let d ← slotVal g 3
  pure (64 * a + 16 * b + 4 * c + d)

/-- Pack from twobit.go: packedSize (length) output bytes, each built
from the next four sequence symbols (the last byte padded with the
filler code of T); the first unsupported symbol aborts with the
UnsupportedBase error (none).  The Go loop over the output indices with
a running symbol index idx = 4 * i is rendered as recursion consuming
four symbols per output byte. -/
def Pack : List Nat → Option (List Nat)
  | [] => some []
  | a :: b :: c :: d :: rest => do
      let byte ← packChunk [a, b, c, d]
      let out ← Pack rest
      pure (byte :: out)
  | g => do
      let byte ← packChunk g
      pure [byte]

/-- seqRecord from twobit.go, as a range read consumes it: the dnaSize
field and the two block maps (each a list of (start, count) pairs
standing for the Go map from block start to block length). -/
structure SeqRecord where
  dnaSize : Nat
  nBlocks : List (Nat × Nat)
  mBlocks : List (Nat × Nat)
  deriving DecidableEq, Repr

/-- The outcomes of ReadRange that are not a decoded sequence: the
InvalidRange error, a failed byte read (binary.Read error, for example
at end of file), and a Go runtime panic from an out-of-range write in
an overlay loop. -/
inductive ReadErr where
  | invalidRange : ReadErr
  | readError : ReadErr
  | indexPanic : ReadErr
  deriving DecidableEq, Repr

/-- The inner overlay loop of ReadRange: starting at index idx, write
f of the current value into cnt consecutive positions of seq,
incrementing idx after each write and breaking once idx reaches the
length of seq.  The bounds test comes after the write, so a first
write at an index at or past the length is the Go runtime panic,
modelled as none. -/
def writeRun (f : Nat → Nat) : List Nat → Nat → Nat → Option (List Nat)
  | seq, _, 0 => some seq
  | seq, idx, cnt + 1 =>
      if idx < seq.length then
        let seq2 := seq.set idx (f (seq.getD idx 0))
        if seq.length ≤ idx + 1 then some seq2
        else writeRun f seq2 (idx + 1) cnt
      else none

/-- The overlay loops of ReadRange over one block map: a block is
skipped when blockStart + count < start or blockStart > end; otherwise
idx = blockStart - start is clipped at 0 (the count reduced by the
clipped amount, Go int arithmetic) and writeRun applies f. -/
def overlayBlocks (f : Nat → Nat) (start endN : Nat) :
    List Nat → List (Nat × Nat) → Option (List Nat)
  | seq, [] => some seq
  | seq, (bi, cnt) :: rest =>
      if bi + cnt < start ∨ endN < bi then overlayBlocks f start endN seq rest
      else
        let idxI : Int := (bi : Int) - (start : Int)
        let cntI : Int := if idxI < 0 then (cnt : Int) + idxI else (cnt : Int)
        let idx : Nat := idxI.toNat
        match writeRun f seq idx cntI.toNat with
        | none => none
        | some seq2 => overlayBlocks f start endN seq2 rest

/-- The seek shift of ReadRange: packedSize start, decremented by one
when start is not a multiple of 4 (and 0 when start is 0, where the Go
code does not seek). -/
def rangeShift (start : Nat) : Nat :=
  if start = 0 then 0
  else if start % 4 = 0 then packedSize start
  else packedSize start - 1

/-- The byte count of ReadRange: packedSize of the base count,
incremented by one when start is positive and not a multiple of 4. -/
def rangeSize (start bases : Nat) : Nat :=
  if start = 0 then packedSize bases
  else if start % 4 = 0 then packedSize bases
  else packedSize bases + 1

/-- The body of ReadRange from twobit.go after range normalization,
over the byte stream that starts where the record metadata ended:
seek rangeShift bytes, read rangeSize bytes (a short stream is the
binary.Read error), decode them four symbols per byte dropping the
first start % 4 symbols of the first byte, truncate to end - start
symbols, then overlay the N blocks (overwriting with the code of N)
and the mask blocks (adding 32, Go byte arithmetic, hence modulo
256). -/
def readRangeCore (rec : SeqRecord) (stream : List Nat) (start endN : Nat) :
    Except ReadErr (List Nat) :=
  let bases := endN - start
  let size := rangeSize start bases
  let window := (stream.drop (rangeShift start)).take size
  if window.length < size then .error .readError
  else
    let decoded :=
      match window with
      | [] => ([] : List Nat)
      | b :: rest => (byteToNTs b).drop (start % 4) ++ (rest.map byteToNTs).flatten
    let seq := decoded.take bases
    match overlayBlocks (fun _ => BASE_N) start endN seq rec.nBlocks with
    | none => .error .indexPanic
    | some s1 =>
        match overlayBlocks (fun c => (c + 32) % 256) start endN s1 rec.mBlocks with
        | none => .error .indexPanic
        | some s2 => .ok s2

/-- ReadRange from twobit.go: normalize the requested range against the
record (a negative start becomes 0; an end above dnaSize, then an end
that is 0 or negative, becomes dnaSize), fail with InvalidRange when
the normalized end is at most the normalized start, and otherwise run
the read-decode-overlay body. -/
def ReadRange (rec : SeqRecord) (stream : List Nat) (start0 end0 : Int) :
    Except ReadErr (List Nat) :=
  let total : Int := rec.dnaSize
  let s1 : Int := if start0 < 0 then 0 else start0
  let e1 : Int := if total < end0 then total else end0
  let e2 : Int := if e1 = 0 ∨ e1 < 0 then total else e1
  if e2 ≤ s1 then .error .invalidRange
  else readRangeCore rec stream s1.toNat e2.toNat

/-- Read from twobit.go: the whole sequence, as ReadRange with start
and end both 0. -/
def Read (rec : SeqRecord) (stream : List Nat) : Except ReadErr (List Nat) :=
  ReadRange rec stream 0 0



/-- The four bytes of a byte string at offset i composed as a
big-endian unsigned 32-bit value (binary.BigEndian.Uint32). -/
def beU32 (b : List Nat) (i : Nat) : Nat :=
  b.getD i 0 % 256 * 16777216 + b.getD (i + 1) 0 % 256 * 65536 +
    b.getD (i + 2) 0 % 256 * 256 + b.getD (i + 3) 0 % 256

/-- The four bytes of a byte string at offset i composed as a
little-endian unsigned 32-bit value (binary.LittleEndian.Uint32). -/
def leU32 (b : List Nat) (i : Nat) : Nat :=
  b.getD i 0 % 256 + b.getD (i + 1) 0 % 256 * 256 +
    b.getD (i + 2) 0 % 256 * 65536 + b.getD (i + 3) 0 % 256 * 16777216

/-- The 32-bit field of the header at offset i read in the byte order
parseHeader detects: big-endian when the first four bytes match SIG
big-endian, little-endian otherwise. -/
def detectedU32 (b : List Nat) (i : Nat) : Nat :=
  if beU32 b 0 = SIG then beU32 b i else leU32 b i

/-- The header structure parseHeader fills: sig, version, count,
reserved, and the detected byte order (true for big-endian). -/
structure TbHeader where
  sig : Nat
  version : Nat
  count : Nat
  reserved : Nat
  bigEndian : Bool
  deriving DecidableEq, Repr

/-- The error outcomes of parseHeader: a short read of the 16 header
bytes, the invalid-sig error, the unsupported-version error, and the
nonzero-reserved error. -/
inductive HeaderErr where
  | truncated : HeaderErr
  | malformedHeader : HeaderErr
  | unsupportedVersion : HeaderErr
  | reservedNonZero : HeaderErr
  deriving DecidableEq, Repr

/-- parseHeader from twobit.go: read the 16 header bytes, try the
signature big-endian and then little-endian, then read version, count
and reserved in the detected byte order, requiring version and
reserved to be 0. -/
def parseHeader (b : List Nat) : Except HeaderErr TbHeader :=
  if b.length < 16 then .error .truncated
  else
    let big : Bool := beU32 b 0 = SIG
    let sig : Nat := if big then beU32 b 0 else leU32 b 0
    if sig ≠ SIG then .error .malformedHeader
    else
      let version := detectedU32 b 4
      if version ≠ 0 then .error .unsupportedVersion
      else
        let count := detectedU32 b 8
        let reserved := detectedU32 b 12
        if reserved ≠ 0 then .error .reservedNonZero
        else .ok ⟨sig, version, count, reserved, big⟩

/-- One binary.Read of a uint32 from a byte stream in the given byte
order (big when the flag is true): the value and the remaining
stream, or none when fewer than four bytes remain. -/
def readU32 (big : Bool) (b : List Nat) : Option (Nat × List Nat) :=
  match b with
  | b0 :: b1 :: b2 :: b3 :: rest =>
      if big then
        some (b0 % 256 * 16777216 + b1 % 256 * 65536 + b2 % 256 * 256 + b3 % 256, rest)
      else
        some (b0 % 256 + b1 % 256 * 256 + b2 % 256 * 65536 + b3 % 256 * 16777216, rest)
  | _ => none

/-- n consecutive uint32 reads (the starts and sizes loops of
parseBlockCoords). -/
def readU32List (big : Bool) : Nat → List Nat → Option (List Nat × List Nat)
  | 0, b => some ([], b)
  | n + 1, b => do
      let (v, b1) ← readU32 big b
      let (vs, b2) ← readU32List big n b1
      pure (v :: vs, b2)

/-- A Go map assignment blocks[k] = v on an association list: replace
the value at an existing key, or append a new entry. -/
def mapAssign (m : List (Nat × Nat)) (k v : Nat) : List (Nat × Nat) :=
  if m.any (fun p => p.1 == k) then m.map (fun p => if p.1 == k then (k, v) else p)
  else m ++ [(k, v)]

/-- parseBlockCoords from twobit.go: read a uint32 count, then count
block starts, then count block sizes, and store them in a map keyed by
block start (blocks[starts[i]] = sizes[i] for each index i in order).
Returns the block map and the remaining stream. -/
def parseBlockCoords (big : Bool) (b : List Nat) :
    Option (List (Nat × Nat) × List Nat) := do
  let (count, b1) ← readU32 big b
  let (starts, b2) ← readU32List big count b1
  let (sizes, b3) ← readU32List big count b2
  pure ((List.zip starts sizes).foldl (fun m p => mapAssign m p.1 p.2) [], b3)

/-- The loop of mapBlocks from twobit.go: i is the position of the next
symbol, start the start of the open run, isLast whether the previous
symbol matched, blocks the runs emitted so far (Go stores them in a
map keyed by run start; the starts emitted are strictly increasing, so
an append-only association list is the same map). -/
def mapBlocksAux (check : Nat → Bool) :
    List Nat → Nat → Nat → Bool → List (Nat × Nat) → List (Nat × Nat)
  | [], i, start, isLast, blocks =>
      if isLast then blocks ++ [(start, i - start)] else blocks
  | c :: rest, i, start, isLast, blocks =>
      let m := check c
      mapBlocksAux check rest (i + 1) (if m ∧ ¬isLast then i else start) m
        (if ¬m ∧ isLast then blocks ++ [(start, i - start)] else blocks)

/-- mapBlocks from twobit.go: the maximal runs of symbols satisfying
check, scanned left to right. -/
def mapBlocks (seq : List Nat) (check : Nat → Bool) : List (Nat × Nat) :=
  mapBlocksAux check seq 0 0 false []

/-- The N-run predicate Writer.Add passes to mapBlocks: the symbol is
N or n. -/
def isNn (c : Nat) : Bool := c == BASE_N || c == BASE_N + 32

/-- The mask predicate Writer.Add passes to mapBlocks: the symbol is a
lowercase letter between a and z. -/
def isLowercase (c : Nat) : Bool := 97 ≤ c && c ≤ 122

/-- Writer.Add from twobit.go, for one sequence: dnaSize is the length,
the N blocks and mask blocks come from mapBlocks with the two
predicates, and the packed bytes come from Pack (whose error aborts
the add). -/
def AddRecord (seq : List Nat) : Option (SeqRecord × List Nat) :=
  match Pack seq with
  | none => none
  | some p => some (⟨seq.length, mapBlocks seq isNn, mapBlocks seq isLowercase⟩, p)

/-- binary.LittleEndian.PutUint32 into a byte buffer at offset off:
the four little-endian bytes of v replace positions off to off + 3. -/
def putU32LEAt (buf : List Nat) (off v : Nat) : List Nat :=
  (((buf.set off (v % 256)).set (off + 1) (v / 256 % 256)).set
      (off + 2) (v / 65536 % 256)).set (off + 3) (v / 16777216 % 256)

/-- Writer.WriteTo from twobit.go, with recordCount the number of added
records: a 16-byte buffer receives SIG little-endian at offset 0, the
version 0 at offset 4, the record count at offset 8, and then 0 again
at offset 8 (the Go code passes header[8:16] to the last PutUint32, so
the zero overwrites the count and bytes 12 to 15 keep their initial
zeros); only those 16 bytes are written to the sink. -/
def WriteTo (recordCount : Nat) : List Nat :=
  let h0 := List.replicate 16 0
  let h1 := putU32LEAt h0 0 SIG
  let h2 := putU32LEAt h1 4 0
  let h3 := putU32LEAt h2 8 recordCount
  putU32LEAt h3 8 0

/-- How many blocks of a block map cover position k (a block (bi, cnt)
covers k when bi is at most k and k is below bi + cnt).  For the mask
overlay this multiplicity is the number of times 32 is added at k; for
the N overlay any positive multiplicity overwrites with N. -/
def coverCount (blocks : List (Nat × Nat)) (k : Nat) : Nat :=
  (blocks.filter (fun p => decide (p.1 ≤ k) && decide (k < p.1 + p.2))).length

/-- The symbol the packed byte stream stores for base position k: the
2-bit slot k % 4 of byte k / 4, decoded through BYTES2NT (0 past the
end of the stream decodes as T). -/
def symbolAt (stream : List Nat) (k : Nat) : Nat :=
  ((stream.map byteToNTs).flatten).getD k 0

/-- The value ReadRange produces at base position k of the record: the
stored symbol, overwritten with N when some N block covers k, then 32
added (byte arithmetic) once for every mask block covering k. -/
def RRspec (rec : SeqRecord) (stream : List Nat) (k : Nat) : Nat :=
  (fun c => (c + 32) % 256)^[coverCount rec.mBlocks k]
    (if 1 ≤ coverCount rec.nBlocks k then BASE_N else symbolAt stream k)

/-- The maximal-run specification a pair (st, len) of mapBlocks is
claimed to satisfy: a nonempty run inside the sequence, every position
of the run satisfying check, and both neighbours (when they exist)
failing check. -/
def IsMaxRun (s : List Nat) (check : Nat → Bool) (st len : Nat) : Prop :=
  1 ≤ len ∧ st + len ≤ s.length ∧
    (∀ k, st ≤ k → k < st + len → check (s.getD k 0) = true) ∧
    (st = 0 ∨ check (s.getD (st - 1) 0) = false) ∧
    (st + len = s.length ∨ check (s.getD (st + len) 0) = false)

/-! ## Theorems -/

deriving instance DecidableEq for Except

/-- C10: parseBlockCoords stores parsed blocks in a mapping keyed by
block start, so for an input byte stream declaring two blocks with the
same start 5 (lengths 3 and then 7), the result holds a single block
at start 5 whose length is 7, the one paired with the higher index,
and the number of returned blocks, 1, is strictly smaller than the
declared count 2: duplicate-start blocks are silently merged, not
rejected. -/
theorem c10_duplicate_starts_merged :
    parseBlockCoords false
        [2, 0, 0, 0, 5, 0, 0, 0, 5, 0, 0, 0, 3, 0, 0, 0, 7, 0, 0, 0] =
      some ([(5, 7)], []) ∧ ([(5, 7)] : List (Nat × Nat)).length < 2 := by
  decide

/-- C7 (evaluation at the failing input): a Writer holding one added
record emits only the 16 header bytes, nothing of the index or the
record bodies, and even the count field at offset 8 is zero rather
than 1, because the final PutUint32 writes its zero into bytes 8 to 11
(the Go code passes header[8:16] where header[12:16] was intended). -/
theorem c7_writeTo_only_header :
    WriteTo 1 = [67, 39, 65, 26, 0, 0, 0, 0, 0, 0, 0, 0, 0, 0, 0, 0] ∧
      leU32 (WriteTo 1) 8 = 0 := by
  decide

/-- C2 (evaluation at the failing input): for the record with dnaSize 8
and the single N block (4, 2), the full read succeeds, but the range
read with start 0 and end 4 hits the out-of-range overlay write: the
block starting exactly at the exclusive bound end = 4 is not skipped,
its first write targets index 4 of the 4-symbol output, and the bounds
test of the loop runs only after the write, so the Go code panics
instead of staying within the buffer. -/
theorem c2_overlay_writes_out_of_range :
    ReadRange ⟨8, [(4, 2)], []⟩ [0, 0] 0 4 = .error .indexPanic ∧
      Read ⟨8, [(4, 2)], []⟩ [0, 0] =
        .ok [84, 84, 84, 84, 78, 78, 84, 84] := by
  decide

/-- C1 (counterexample): for the record with dnaSize 8 and the single
mask block (4, 1) over an all-T packed stream, the pair (0, 4) is a
valid range (0 <= 0 < 4 <= 8), the full read succeeds, yet ReadRange
panics on the overlay write at index 4 (the block starts exactly at
end) and so does not return the slice of the full read. -/
theorem c1_counterexample :
    ReadRange ⟨8, [], [(4, 1)]⟩ [0, 0] 0 4 = .error .indexPanic ∧
      Read ⟨8, [], [(4, 1)]⟩ [0, 0] =
        .ok [84, 84, 84, 84, 116, 84, 84, 84] ∧
      ReadRange ⟨8, [], [(4, 1)]⟩ [0, 0] 0 4 ≠
        .ok (([84, 84, 84, 84, 116, 84, 84, 84].drop 0).take 4) := by
  decide

/-- C3 (counterexample): a record with dnaSize 3, no blocks, and the
single packed byte 0 (packedSize 3 = 1 byte, encoding TTT).  The range
(1, 2) is valid, and Unpack of the packed byte sliced to [1, 2) is the
symbol T, but ReadRange computes shift = 0 and byteCount = 2 (the
unaligned start adds one byte) and so tries to read two bytes from the
one-byte stream: the read fails instead of returning the slice. -/
theorem c3_counterexample :
    ([0] : List Nat).length = packedSize 3 ∧
      ReadRange ⟨3, [], []⟩ [0] 1 2 = .error .readError ∧
      ((Unpack [0] 3).drop 1).take 1 = [84] := by
  decide

/-- The body of ReadRange after normalization only produces a read
error, an overlay panic, or a decoded sequence: the InvalidRange error
arises in the normalization step alone. -/
lemma readRangeCore_ne_invalidRange (rec : SeqRecord) (stream : List Nat)
    (start endN : Nat) :
    readRangeCore rec stream start endN ≠ .error .invalidRange := by
  unfold readRangeCore
  dsimp only
  split
  · simp
  · split
    · simp
    · split
      · simp
      · simp

/-- On integers, the maximum with 0 is the conditional the Go
normalization step writes. -/
lemma max_int_alt (a : Int) : max a 0 = if a < 0 then 0 else a := by
  split_ifs with h
  · exact max_eq_right h.le
  · exact max_eq_left (by omega)

/-- C6: for every record and every integer pair (start, end), ReadRange
normalizes start to max(start, 0) and end to dnaSize whenever end is
at most 0 or above dnaSize, and fails with InvalidRange exactly when
the normalized end is at most the normalized start; the error carries
no sequence (the model returns the bare error). -/
theorem c6_invalid_range_iff (rec : SeqRecord) (stream : List Nat)
    (start0 end0 : Int) :
    ReadRange rec stream start0 end0 = .error .invalidRange ↔
      (if end0 ≤ 0 ∨ (rec.dnaSize : Int) < end0 then (rec.dnaSize : Int) else end0) ≤
        max start0 0 := by
  rw [max_int_alt]
  unfold ReadRange
  dsimp only
  split_ifs <;> simp_all [readRangeCore_ne_invalidRange] <;> omega

/-- C5: on any 16 readable header bytes, parseHeader fails with the
malformed-header error exactly when the first four bytes match the
magic constant SIG under neither byte order; when the big-endian
reading matches, the detected order is big-endian, otherwise
little-endian (detectedU32 reads every later field in that order and
the returned header records it); with a recognized signature it fails
with the unsupported-version error exactly when the version field is
nonzero, then with the nonzero-reserved error exactly when the
reserved field is nonzero, and otherwise succeeds with those fields. -/
theorem c5_parseHeader (b : List Nat) (hlen : 16 ≤ b.length) :
    (parseHeader b = .error .malformedHeader ↔
      (beU32 b 0 ≠ SIG ∧ leU32 b 0 ≠ SIG)) ∧
    (beU32 b 0 = SIG ∨ leU32 b 0 = SIG →
      ((parseHeader b = .error .unsupportedVersion ↔ detectedU32 b 4 ≠ 0) ∧
       (detectedU32 b 4 = 0 →
         (parseHeader b = .error .reservedNonZero ↔ detectedU32 b 12 ≠ 0)) ∧
       (detectedU32 b 4 = 0 → detectedU32 b 12 = 0 →
         parseHeader b = .ok ⟨SIG, 0, detectedU32 b 8, 0, beU32 b 0 = SIG⟩))) := by
  have hL : ¬ b.length < 16 := by omega
  unfold parseHeader detectedU32
  dsimp only
  by_cases hbe : beU32 b 0 = SIG
  · simp only [hL, hbe, if_true, if_false]
    split_ifs <;> simp_all
  · by_cases hle : leU32 b 0 = SIG
    · simp only [hL, hbe, hle]
      split_ifs <;> simp_all
    · simp [hL, hbe, hle]

/-- C5 witness: a concrete little-endian header (signature bytes 67,
39, 65, 26, version 0, count 1, reserved 0) parses to the expected
header value. -/
theorem c5_witness :
    parseHeader [67, 39, 65, 26, 0, 0, 0, 0, 1, 0, 0, 0, 0, 0, 0, 0] =
      .ok ⟨SIG, 0, detectedU32 [67, 39, 65, 26, 0, 0, 0, 0, 1, 0, 0, 0, 0, 0, 0, 0] 8, 0,
           beU32 [67, 39, 65, 26, 0, 0, 0, 0, 1, 0, 0, 0, 0, 0, 0, 0] 0 = SIG⟩ :=
  ((c5_parseHeader [67, 39, 65, 26, 0, 0, 0, 0, 1, 0, 0, 0, 0, 0, 0, 0]
      (by decide)).2 (Or.inr (by decide))).2.2 (by decide) (by decide)

set_option maxHeartbeats 1000000 in
/-- NT2BYTES is defined exactly on the ten base characters A, C, G, T,
N and their lowercase forms. -/
lemma NT2BYTES_none_iff (c : Nat) :
    NT2BYTES c = none ↔ c ∉ ([65, 97, 67, 99, 71, 103, 84, 116, 78, 110] : List Nat) := by
  constructor
  · intro h hmem
    simp only [List.mem_cons, List.not_mem_nil, or_false] at hmem
    rcases hmem with h1 | h1 | h1 | h1 | h1 | h1 | h1 | h1 | h1 | h1 <;>
      (subst h1; exact absurd h (by decide))
  · intro hmem
    cases hcv : NT2BYTES c with
    | none => rfl
    | some v =>
        exfalso
        apply hmem
        unfold NT2BYTES BASE_N BASE_T BASE_C BASE_A BASE_G at hcv
        split_ifs at hcv with h1 h2 h3 h4 h5 h6 h7 h8 h9 h10
        · subst h1; decide
        · subst h2; decide
        · subst h3; decide
        · subst h4; decide
        · subst h5; decide
        · subst h6; decide
        · subst h7; decide
        · subst h8; decide
        · subst h9; decide
        · subst h10; decide

/-- One packed byte fails exactly when one of its at most four symbols
is outside the NT2BYTES map. -/
lemma packChunk_none_iff (g : List Nat) (hg : g.length ≤ 4) :
    packChunk g = none ↔ ∃ c ∈ g, NT2BYTES c = none := by
  rcases g with _ | ⟨a, _ | ⟨b, _ | ⟨c, _ | ⟨d, rest⟩⟩⟩⟩
  · simp [packChunk, slotVal]
  · cases hA : NT2BYTES a <;> simp [packChunk, slotVal, hA]
  · cases hA : NT2BYTES a <;> cases hB : NT2BYTES b <;>
      simp [packChunk, slotVal, hA, hB]
  · cases hA : NT2BYTES a <;> cases hB : NT2BYTES b <;> cases hC : NT2BYTES c <;>
      simp [packChunk, slotVal, hA, hB, hC]
  · have hrest : rest = [] := by
      simp only [List.length_cons] at hg
      exact List.length_eq_zero.mp (by omega)
    subst hrest
    cases hA : NT2BYTES a <;> cases hB : NT2BYTES b <;> cases hC : NT2BYTES c <;>
      cases hD : NT2BYTES d <;> simp [packChunk, slotVal, hA, hB, hC, hD]

/-- Pack fails exactly when some symbol of the sequence is outside the
NT2BYTES map. -/
lemma Pack_none_iff (s : List Nat) :
    Pack s = none ↔ ∃ c ∈ s, NT2BYTES c = none := by
  induction s using Pack.induct with
  | case1 => simp [Pack]
  | case2 a b c d rest ih =>
      have hch := packChunk_none_iff [a, b, c, d] (by simp)
      cases hc : packChunk [a, b, c, d] <;> rw [hc] at hch <;>
        cases hp : Pack rest <;> rw [hp] at ih <;> simp_all [Pack, hc, hp] <;> tauto
  | case3 g hne h4 =>
      rcases g with _ | ⟨a, _ | ⟨b, _ | ⟨c, _ | ⟨d, rest⟩⟩⟩⟩
      · exact (hne rfl).elim
      · have hch := packChunk_none_iff [a] (by simp)
        cases hc : packChunk [a] <;> rw [hc] at hch <;> simp_all [Pack, hc]
      · have hch := packChunk_none_iff [a, b] (by simp)
        cases hc : packChunk [a, b] <;> rw [hc] at hch <;> simp_all [Pack, hc]
      · have hch := packChunk_none_iff [a, b, c] (by simp)
        cases hc : packChunk [a, b, c] <;> rw [hc] at hch <;> simp_all [Pack, hc]
      · exact (h4 a b c d rest rfl).elim

/-- C8: Pack returns the UnsupportedBase error (none) exactly when some
symbol of the sequence lies outside the ten characters A, C, G, T, N,
a, c, g, t, n; equivalently NT2BYTES maps T, t, N, n to 0, C, c to 1,
A, a to 2, G, g to 3, and rejects every other byte value. -/
theorem c8_pack_unsupported (s : List Nat) :
    (Pack s = none ↔
      ∃ c ∈ s, c ∉ ([65, 97, 67, 99, 71, 103, 84, 116, 78, 110] : List Nat)) ∧
    (∀ c, NT2BYTES c = none ↔
      c ∉ ([65, 97, 67, 99, 71, 103, 84, 116, 78, 110] : List Nat)) ∧
    NT2BYTES 84 = some 0 ∧ NT2BYTES 116 = some 0 ∧ NT2BYTES 78 = some 0 ∧
    NT2BYTES 110 = some 0 ∧ NT2BYTES 67 = some 1 ∧ NT2BYTES 99 = some 1 ∧
    NT2BYTES 65 = some 2 ∧ NT2BYTES 97 = some 2 ∧ NT2BYTES 71 = some 3 ∧
    NT2BYTES 103 = some 3 := by
  refine ⟨?_, NT2BYTES_none_iff, by decide, by decide, by decide, by decide,
    by decide, by decide, by decide, by decide, by decide, by decide⟩
  rw [Pack_none_iff]
  simp only [NT2BYTES_none_iff]


set_option maxHeartbeats 1000000 in
/-- Every code NT2BYTES produces is one of the four 2-bit values. -/
lemma NT2BYTES_some_lt (c v : Nat) (h : NT2BYTES c = some v) : v < 4 := by
  unfold NT2BYTES at h
  split_ifs at h <;> (injection h with h; omega)

/-- Decoding a byte assembled from four 2-bit codes recovers the four
base characters of those codes. -/
lemma byteToNTs_compose (a b c d : Nat) (ha : a < 4) (hb : b < 4) (hc : c < 4)
    (hd : d < 4) :
    byteToNTs (64 * a + 16 * b + 4 * c + d) =
      [BYTES2NT a, BYTES2NT b, BYTES2NT c, BYTES2NT d] := by
  unfold byteToNTs
  rw [show (64 * a + 16 * b + 4 * c + d) / 64 % 4 = a by omega,
      show (64 * a + 16 * b + 4 * c + d) / 16 % 4 = b by omega,
      show (64 * a + 16 * b + 4 * c + d) / 4 % 4 = c by omega,
      show (64 * a + 16 * b + 4 * c + d) % 4 = d by omega]

/-- A packed byte built from one to four supported symbols decodes to
their canonical base characters followed by T fillers, and the filler
slots of the byte are zero. -/
lemma packChunk_valid (g : List Nat) (h1 : 1 ≤ g.length) (h4 : g.length ≤ 4)
    (hv : ∀ c ∈ g, NT2BYTES c ≠ none) :
    ∃ byte, packChunk g = some byte ∧
      byteToNTs byte =
        g.map (fun c => BYTES2NT ((NT2BYTES c).getD 0)) ++
          List.replicate (4 - g.length) BASE_T ∧
      byte % 4 ^ (4 - g.length) = 0 := by
  rcases g with _ | ⟨a, _ | ⟨b, _ | ⟨c, _ | ⟨d, rest⟩⟩⟩⟩
  · simp at h1
  · obtain ⟨va, hA⟩ := Option.ne_none_iff_exists'.mp (hv a (by simp))
    have hva := NT2BYTES_some_lt a va hA
    refine ⟨64 * va + 16 * 0 + 4 * 0 + 0, ?_, ?_, ?_⟩
    · simp [packChunk, slotVal, hA]
    · rw [byteToNTs_compose va 0 0 0 hva (by omega) (by omega) (by omega)]
      simp [hA, BASE_T]
      try decide
    · simp only [List.length_cons, List.length_nil]
      norm_num
      try omega
  · obtain ⟨va, hA⟩ := Option.ne_none_iff_exists'.mp (hv a (by simp))
    obtain ⟨vb, hB⟩ := Option.ne_none_iff_exists'.mp (hv b (by simp))
    have hva := NT2BYTES_some_lt a va hA
    have hvb := NT2BYTES_some_lt b vb hB
    refine ⟨64 * va + 16 * vb + 4 * 0 + 0, ?_, ?_, ?_⟩
    · simp [packChunk, slotVal, hA, hB]
    · rw [byteToNTs_compose va vb 0 0 hva hvb (by omega) (by omega)]
      simp [hA, hB, BASE_T]
      try decide
    · simp only [List.length_cons, List.length_nil]
      norm_num
      try omega
  · obtain ⟨va, hA⟩ := Option.ne_none_iff_exists'.mp (hv a (by simp))
    obtain ⟨vb, hB⟩ := Option.ne_none_iff_exists'.mp (hv b (by simp))
    obtain ⟨vc, hC⟩ := Option.ne_none_iff_exists'.mp (hv c (by simp))
    have hva := NT2BYTES_some_lt a va hA
    have hvb := NT2BYTES_some_lt b vb hB
    have hvc := NT2BYTES_some_lt c vc hC
    refine ⟨64 * va + 16 * vb + 4 * vc + 0, ?_, ?_, ?_⟩
    · simp [packChunk, slotVal, hA, hB, hC]
    · rw [byteToNTs_compose va vb vc 0 hva hvb hvc (by omega)]
      simp [hA, hB, hC, BASE_T]
      try decide
    · simp only [List.length_cons, List.length_nil]
      norm_num
      try omega
  · have hrest : rest = [] := by
      simp only [List.length_cons] at h4
      exact List.length_eq_zero.mp (by omega)
    subst hrest
    obtain ⟨va, hA⟩ := Option.ne_none_iff_exists'.mp (hv a (by simp))
    obtain ⟨vb, hB⟩ := Option.ne_none_iff_exists'.mp (hv b (by simp))
    obtain ⟨vc, hC⟩ := Option.ne_none_iff_exists'.mp (hv c (by simp))
    obtain ⟨vd, hD⟩ := Option.ne_none_iff_exists'.mp (hv d (by simp))
    have hva := NT2BYTES_some_lt a va hA
    have hvb := NT2BYTES_some_lt b vb hB
    have hvc := NT2BYTES_some_lt c vc hC
    have hvd := NT2BYTES_some_lt d vd hD
    refine ⟨64 * va + 16 * vb + 4 * vc + vd, ?_, ?_, ?_⟩
    · simp [packChunk, slotVal, hA, hB, hC, hD]
    · rw [byteToNTs_compose va vb vc vd hva hvb hvc hvd]
      simp [hA, hB, hC, hD]
    · exact Nat.mod_one _



/-- Packing a sequence of supported symbols succeeds with packedSize
bytes, unpacking reproduces the canonical bases, and the last byte of
a sequence whose length is not a multiple of 4 has zero filler
slots. -/
lemma Pack_roundtrip (s : List Nat) (hv : ∀ c ∈ s, NT2BYTES c ≠ none) :
    ∃ p, Pack s = some p ∧ p.length = packedSize s.length ∧
      Unpack p s.length = s.map (fun c => BYTES2NT ((NT2BYTES c).getD 0)) ∧
      (s.length % 4 ≠ 0 →
        ∃ b, p.getLast? = some b ∧ b % 4 ^ (4 - s.length % 4) = 0) := by
  induction s using Pack.induct with
  | case1 => exact ⟨[], rfl, rfl, rfl, by simp⟩
  | case2 a b c d rest ih =>
      obtain ⟨byte, hbyte, hdec, _⟩ :=
        packChunk_valid [a, b, c, d] (by simp) (by simp)
          (fun x hx => hv x (by simp at hx; rcases hx with h|h|h|h <;> simp [h]))
      obtain ⟨p, hp, hplen, hpdec, hplast⟩ :=
        ih (fun x hx => hv x (by simp [hx]))
      refine ⟨byte :: p, ?_, ?_, ?_, ?_⟩
      · simp [Pack, hbyte, hp]
      · simp only [List.length_cons, hplen, packedSize]
        omega
      · unfold Unpack
        simp only [List.map_cons, List.flatten_cons, List.length_cons]
        rw [List.take_append_eq_append_take]
        have h4 : (byteToNTs byte).length = 4 := by simp [byteToNTs]
        rw [List.take_of_length_le (by omega), h4]
        have : rest.length + 1 + 1 + 1 + 1 - 4 = rest.length := by omega
        rw [this]
        rw [show ((List.map byteToNTs p).flatten).take rest.length = Unpack p rest.length from rfl]
        rw [hpdec, hdec]
        simp
      · intro hmod
        simp only [List.length_cons] at hmod
        have hmod2 : rest.length % 4 ≠ 0 := by omega
        obtain ⟨lb, hlb, hlbmod⟩ := hplast hmod2
        refine ⟨lb, ?_, ?_⟩
        · rcases p with _ | ⟨q, p2⟩
          · simp at hlb
          · rw [List.getLast?_cons_cons]
            exact hlb
        · have : (rest.length + 1 + 1 + 1 + 1) % 4 = rest.length % 4 := by omega
          rw [List.length_cons, List.length_cons, List.length_cons, List.length_cons]
          rw [this]
          exact hlbmod
  | case3 g hne h4 =>
      have hlen4 : g.length ≤ 4 := by
        rcases g with _ | ⟨a, _ | ⟨b, _ | ⟨c, _ | ⟨d, rest⟩⟩⟩⟩
        · simp
        · simp
        · simp
        · simp
        · exact (h4 _ _ _ _ _ rfl).elim
      have hlen1 : 1 ≤ g.length := by
        rcases g with _ | ⟨a, g2⟩
        · exact (hne rfl).elim
        · simp
      obtain ⟨byte, hbyte, hdec, hfill⟩ := packChunk_valid g hlen1 hlen4 hv
      have hpack : Pack g = some [byte] := by
        rcases g with _ | ⟨a, _ | ⟨b, _ | ⟨c, _ | ⟨d, rest⟩⟩⟩⟩
        · exact (hne rfl).elim
        · simp [Pack, hbyte]
        · simp [Pack, hbyte]
        · simp [Pack, hbyte]
        · exact (h4 _ _ _ _ _ rfl).elim
      refine ⟨[byte], hpack, ?_, ?_, ?_⟩
      · simp only [List.length_singleton, packedSize]
        omega
      · unfold Unpack
        simp only [List.map_cons, List.map_nil, List.flatten_cons, List.flatten_nil,
          List.append_nil]
        rw [hdec, List.take_append_eq_append_take]
        have hmaplen : (g.map (fun c => BYTES2NT ((NT2BYTES c).getD 0))).length = g.length := by
          simp
        rw [List.take_of_length_le (by omega)]
        simp
      · intro hmod
        refine ⟨byte, rfl, ?_⟩
        have : g.length % 4 = g.length := Nat.mod_eq_of_lt (by omega)
        rw [this]
        exact hfill



/-- C4: for every sequence over the ten supported characters, Pack
succeeds and produces packedSize (that is, the ceiling of a quarter of
the length) bytes, Unpack of the packed bytes at the original length
equals the sequence with every symbol replaced by its canonical base
(BYTES2NT of its NT2BYTES code: uppercase, N and n becoming T), and
when the length is not a multiple of 4 the unused low-order slots of
the final byte hold the zero code of T (the byte is divisible by 4 to
the number of unused slots) and never appear in the unpacked output
(whose length is the original length). -/
theorem c4_roundtrip (s : List Nat)
    (hs : ∀ c ∈ s, c ∈ ([65, 97, 67, 99, 71, 103, 84, 116, 78, 110] : List Nat)) :
    ∃ p, Pack s = some p ∧ p.length = packedSize s.length ∧
      Unpack p s.length = s.map (fun c => BYTES2NT ((NT2BYTES c).getD 0)) ∧
      (s.length % 4 ≠ 0 →
        ∃ b, p.getLast? = some b ∧ b % 4 ^ (4 - s.length % 4) = 0) :=
  Pack_roundtrip s fun c hc => fun hn => ((NT2BYTES_none_iff c).mp hn) (hs c hc)

/-- C4 witness: the sequence ACTgc packs and round-trips as stated. -/
theorem c4_witness :
    ∃ p, Pack [65, 67, 84, 103, 99] = some p ∧
      p.length = packedSize ([65, 67, 84, 103, 99] : List Nat).length ∧
      Unpack p ([65, 67, 84, 103, 99] : List Nat).length =
        ([65, 67, 84, 103, 99] : List Nat).map (fun c => BYTES2NT ((NT2BYTES c).getD 0)) ∧
      (([65, 67, 84, 103, 99] : List Nat).length % 4 ≠ 0 →
        ∃ b, p.getLast? = some b ∧
          b % 4 ^ (4 - ([65, 67, 84, 103, 99] : List Nat).length % 4) = 0) :=
  c4_roundtrip [65, 67, 84, 103, 99] (by decide)



/-- Writing position i of a list and reading it back gives the written
value. -/
lemma getD_set_self (l : List Nat) (i v : Nat) (h : i < l.length) :
    (l.set i v).getD i 0 = v := by
  rw [List.getD_eq_getElem?_getD, List.getElem?_set_self (by omega)]
  rfl

/-- Writing position i of a list leaves every other position
unchanged. -/
lemma getD_set_ne (l : List Nat) (i j v : Nat) (h : i ≠ j) :
    (l.set i v).getD j 0 = l.getD j 0 := by
  rw [List.getD_eq_getElem?_getD, List.getElem?_set_ne h, ← List.getD_eq_getElem?_getD]



/-- The overlay write loop panics exactly when it has at least one
write to perform and its first index is already at or past the end of
the buffer. -/
lemma writeRun_none_iff (f : Nat → Nat) :
    ∀ (cnt : Nat) (seq : List Nat) (idx : Nat),
      writeRun f seq idx cnt = none ↔ (1 ≤ cnt ∧ seq.length ≤ idx) := by
  intro cnt
  induction cnt with
  | zero => intro seq idx; simp [writeRun]
  | succ n ih =>
      intro seq idx
      simp only [writeRun]
      split_ifs with h1 h2
      · simp
        omega
      · rw [ih]
        simp only [List.length_set]
        omega
      · simp
        omega

/-- A successful overlay write loop keeps the buffer length and applies
f exactly at the positions from idx up to idx + cnt, clipped at the
buffer length. -/
lemma writeRun_some_getD (f : Nat → Nat) :
    ∀ (cnt : Nat) (seq : List Nat) (idx : Nat) (out : List Nat),
      writeRun f seq idx cnt = some out →
      out.length = seq.length ∧
      ∀ j, out.getD j 0 =
        if idx ≤ j ∧ j < idx + cnt ∧ j < seq.length
        then f (seq.getD j 0) else seq.getD j 0 := by
  intro cnt
  induction cnt with
  | zero =>
      intro seq idx out h
      simp only [writeRun, Option.some.injEq] at h
      subst h
      refine ⟨rfl, fun j => ?_⟩
      rw [if_neg (by omega)]
  | succ n ih =>
      intro seq idx out h
      simp only [writeRun] at h
      split_ifs at h with h1 h2
      · simp only [Option.some.injEq] at h
        subst h
        refine ⟨by simp, fun j => ?_⟩
        by_cases hj : j = idx
        · subst hj
          rw [getD_set_self seq j _ h1, if_pos ⟨le_refl j, by omega, h1⟩]
        · rw [getD_set_ne seq idx j _ (fun hh => hj hh.symm)]
          rw [if_neg (by omega)]
      · obtain ⟨hlen, hget⟩ := ih _ _ _ h
        rw [List.length_set] at hlen
        refine ⟨hlen, fun j => ?_⟩
        rw [hget j]
        by_cases hj : j = idx
        · subst hj
          rw [if_neg (by omega), getD_set_self seq j _ h1, if_pos ⟨le_refl j, by omega, h1⟩]
        · rw [getD_set_ne seq idx j _ (fun hh => hj hh.symm), List.length_set]
          by_cases hcond : idx + 1 ≤ j ∧ j < idx + 1 + n ∧ j < seq.length
          · rw [if_pos hcond, if_pos (by omega)]
          · rw [if_neg hcond, if_neg (by omega)]



/-- The overlay over a block list panics exactly when some block starts
at the exclusive bound end with a positive count; a successful overlay
keeps the length and applies f at position j once for every block
covering the absolute position start + j. -/
lemma overlayBlocks_char (f : Nat → Nat) (start endN : Nat) (hse : start < endN) :
    ∀ (blocks : List (Nat × Nat)) (seq : List Nat), seq.length = endN - start →
      ((overlayBlocks f start endN seq blocks = none ↔
        ∃ p ∈ blocks, p.1 = endN ∧ 1 ≤ p.2) ∧
       ∀ out, overlayBlocks f start endN seq blocks = some out →
         out.length = seq.length ∧
         ∀ j, j < seq.length →
           out.getD j 0 = f^[coverCount blocks (start + j)] (seq.getD j 0))
  | [], seq, hlen => by
      simp [overlayBlocks, coverCount]
  | (bi, cnt) :: rest, seq, hlen => by
      by_cases hskip : bi + cnt < start ∨ endN < bi
      · have hrec := overlayBlocks_char f start endN hse rest seq hlen
        simp only [overlayBlocks, if_pos hskip]
        constructor
        · rw [hrec.1]
          simp only [List.mem_cons]
          constructor
          · rintro ⟨p, hp, hc⟩
            exact ⟨p, Or.inr hp, hc⟩
          · rintro ⟨p, hp | hp, hc⟩
            · rw [hp] at hc
              dsimp at hc
              omega
            · exact ⟨p, hp, hc⟩
        · intro out hout
          obtain ⟨holen, hoget⟩ := hrec.2 out hout
          refine ⟨holen, fun j hj => ?_⟩
          rw [hoget j hj]
          have hcov : coverCount ((bi, cnt) :: rest) (start + j) =
              coverCount rest (start + j) := by
            unfold coverCount
            rw [List.filter_cons,
              if_neg (by simp only [Bool.and_eq_true, decide_eq_true_eq]; omega)]
          rw [hcov]
      · have hskip2 : start ≤ bi + cnt ∧ bi ≤ endN := by
          push_neg at hskip
          omega
        simp only [overlayBlocks, if_neg hskip]
        rw [show ((bi : Int) - (start : Int)).toNat = bi - start from by omega,
            show ((if (bi : Int) - (start : Int) < 0 then
                (cnt : Int) + ((bi : Int) - (start : Int)) else (cnt : Int)).toNat) =
              (if bi < start then cnt + bi - start else cnt) from by
                split_ifs <;> omega]
        cases hw : writeRun f seq (bi - start) (if bi < start then cnt + bi - start else cnt) with
        | none =>
            obtain ⟨hc1, hc2⟩ := (writeRun_none_iff f _ seq _).mp hw
            have hbi : bi = endN := by
              by_cases hb : bi < start
              · omega
              · omega
            have hcnt : 1 ≤ cnt := by
              by_cases hb : bi < start
              · omega
              · rw [if_neg hb] at hc1
                exact hc1
            constructor
            · simp only [List.mem_cons]
              exact iff_of_true (by trivial) ⟨(bi, cnt), Or.inl rfl, hbi, hcnt⟩
            · intro out hout
              exact absurd hout (by simp)
        | some seq2 =>
            obtain ⟨hlen2, hget2⟩ := writeRun_some_getD f _ seq _ seq2 hw
            have hlen2e : seq2.length = endN - start := by omega
            have hrec := overlayBlocks_char f start endN hse rest seq2 hlen2e
            have hheadno : ¬(bi = endN ∧ 1 ≤ cnt) := by
              rintro ⟨h1, h2⟩
              subst h1
              have hnone := (writeRun_none_iff f
                  (if bi < start then cnt + bi - start else cnt) seq (bi - start)).mpr
                ⟨by rw [if_neg (by omega)]; exact h2, by omega⟩
              rw [hw] at hnone
              exact Option.noConfusion hnone
            constructor
            · rw [hrec.1]
              simp only [List.mem_cons]
              constructor
              · rintro ⟨p, hp, hc⟩
                exact ⟨p, Or.inr hp, hc⟩
              · rintro ⟨p, hp | hp, hc⟩
                · rw [hp] at hc
                  exact absurd hc hheadno
                · exact ⟨p, hp, hc⟩
            · intro out hout
              obtain ⟨holen, hoget⟩ := hrec.2 out hout
              refine ⟨by omega, fun j hj => ?_⟩
              have hj2 : j < seq2.length := by omega
              rw [hoget j hj2, hget2 j]
              have hcov : coverCount ((bi, cnt) :: rest) (start + j) =
                  coverCount rest (start + j) +
                    (if bi ≤ start + j ∧ start + j < bi + cnt then 1 else 0) := by
                unfold coverCount
                rw [List.filter_cons]
                by_cases hc : bi ≤ start + j ∧ start + j < bi + cnt
                · rw [if_pos (by simp [hc.1, hc.2]), if_pos hc, List.length_cons]
                · rw [if_neg (by simp only [Bool.and_eq_true, decide_eq_true_eq]; tauto),
                      if_neg hc]
                  omega
              rw [hcov]
              by_cases hc : bi ≤ start + j ∧ start + j < bi + cnt
              · rw [if_pos hc, if_pos (by split_ifs with hb <;> omega),
                  Function.iterate_add_apply]
                simp
              · rw [if_neg hc, if_neg (by split_ifs with hb <;> omega)]
                simp



/-- Each byte decodes to four base characters. -/
lemma byteToNTs_length (b : Nat) : (byteToNTs b).length = 4 := by
  simp [byteToNTs]

/-- Decoding a byte stream yields four symbols per byte. -/
lemma flatten_map_length (l : List Nat) :
    ((l.map byteToNTs).flatten).length = 4 * l.length := by
  induction l with
  | nil => simp
  | cons b rest ih =>
      simp only [List.map_cons, List.flatten_cons, List.length_append, ih,
        byteToNTs_length, List.length_cons]
      ring

/-- Decoding after dropping k bytes is dropping 4 k decoded symbols. -/
lemma flatten_map_drop (k : Nat) (l : List Nat) :
    (((l.drop k).map byteToNTs).flatten) = ((l.map byteToNTs).flatten).drop (4 * k) := by
  induction k generalizing l with
  | zero => simp
  | succ n ih =>
      cases l with
      | nil => simp
      | cons b rest =>
          have h4 : (byteToNTs b).length = 4 := byteToNTs_length b
          simp only [List.drop_succ_cons, List.map_cons, List.flatten_cons]
          have hb : (byteToNTs b).drop (4 * (n + 1)) = [] :=
            List.drop_eq_nil_of_le (by omega)
          rw [ih rest, List.drop_append_eq_append_drop, hb, h4]
          simp only [List.nil_append]
          congr 1
          try omega

/-- Decoding the first k bytes is taking 4 k decoded symbols. -/
lemma flatten_map_take (k : Nat) (l : List Nat) :
    (((l.take k).map byteToNTs).flatten) = ((l.map byteToNTs).flatten).take (4 * k) := by
  induction k generalizing l with
  | zero => simp
  | succ n ih =>
      cases l with
      | nil => simp
      | cons b rest =>
          have h4 : (byteToNTs b).length = 4 := byteToNTs_length b
          simp only [List.take_succ_cons, List.map_cons, List.flatten_cons]
          have hb : (byteToNTs b).take (4 * (n + 1)) = byteToNTs b :=
            List.take_of_length_le (by omega)
          rw [ih rest, List.take_append_eq_append_take, hb, h4]
          congr 2
          try omega

/-- Iterating a constant map is the identity at zero iterations and the
constant otherwise. -/
lemma const_iterate (c : Nat) (n : Nat) (x : Nat) :
    (fun _ => c)^[n] x = if 1 ≤ n then c else x := by
  induction n generalizing x with
  | zero => simp
  | succ m ih =>
      rw [Function.iterate_succ_apply, ih]
      split_ifs <;> first | rfl | omega



/-- The normalized range read succeeds whenever the stream covers the
computed byte window and no block of either set starts exactly at the
exclusive bound end with positive count, and its output has one symbol
per position of the half-open range, described pointwise by RRspec. -/
lemma readRangeCore_spec (rec : SeqRecord) (stream : List Nat) (start endN : Nat)
    (hse : start < endN)
    (hfit : rangeShift start + rangeSize start (endN - start) ≤ stream.length)
    (hn : ∀ p ∈ rec.nBlocks, p.1 = endN → p.2 = 0)
    (hm : ∀ p ∈ rec.mBlocks, p.1 = endN → p.2 = 0) :
    ∃ out, readRangeCore rec stream start endN = .ok out ∧
      out.length = endN - start ∧
      ∀ j, j < endN - start → out.getD j 0 = RRspec rec stream (start + j) := by
  have hshift4 : 4 * rangeShift start + start % 4 = start := by
    unfold rangeShift packedSize
    split_ifs <;> omega
  have hsize4 : start % 4 + (endN - start) ≤ 4 * rangeSize start (endN - start) := by
    unfold rangeSize packedSize
    split_ifs <;> omega
  have hsz1 : 1 ≤ rangeSize start (endN - start) := by
    unfold rangeSize packedSize
    split_ifs <;> omega
  have hJlen : ((stream.map byteToNTs).flatten).length = 4 * stream.length :=
    flatten_map_length stream
  have hwl : ((stream.drop (rangeShift start)).take
      (rangeSize start (endN - start))).length = rangeSize start (endN - start) := by
    rw [List.length_take, List.length_drop]
    omega
  obtain ⟨b, rest, hbr⟩ : ∃ b rest,
      (stream.drop (rangeShift start)).take (rangeSize start (endN - start)) =
        b :: rest := by
    cases hcase : (stream.drop (rangeShift start)).take (rangeSize start (endN - start)) with
    | nil =>
        rw [hcase] at hwl
        simp at hwl
        omega
    | cons b rest => exact ⟨b, rest, rfl⟩
  have hdec : (byteToNTs b).drop (start % 4) ++ (rest.map byteToNTs).flatten =
      (((b :: rest).map byteToNTs).flatten).drop (start % 4) := by
    simp only [List.map_cons, List.flatten_cons]
    rw [List.drop_append_of_le_length (by rw [byteToNTs_length]; omega)]
  have hbrJ : (((b :: rest).map byteToNTs).flatten) =
      ((((stream.map byteToNTs).flatten).drop (4 * rangeShift start)).take
        (4 * rangeSize start (endN - start))) := by
    rw [← hbr, flatten_map_take, flatten_map_drop]
  have hseq : (((byteToNTs b).drop (start % 4) ++ (rest.map byteToNTs).flatten)).take
      (endN - start) =
      (((stream.map byteToNTs).flatten).drop start).take (endN - start) := by
    rw [hdec, hbrJ, List.drop_take, List.take_take, List.drop_drop, hshift4]
    congr 1
    omega
  have hslen : ((((byteToNTs b).drop (start % 4) ++
      (rest.map byteToNTs).flatten)).take (endN - start)).length = endN - start := by
    rw [hseq, List.length_take, List.length_drop]
    omega
  have hsymb : ∀ j, j < endN - start →
      ((((byteToNTs b).drop (start % 4) ++
        (rest.map byteToNTs).flatten)).take (endN - start)).getD j 0 =
        symbolAt stream (start + j) := by
    intro j hj
    rw [hseq]
    unfold symbolAt
    simp only [List.getD_eq_getElem?_getD, List.getElem?_take, List.getElem?_drop, hj,
      if_pos hj]
    simp
  have hcore : readRangeCore rec stream start endN =
      (match overlayBlocks (fun _ => BASE_N) start endN
          ((((byteToNTs b).drop (start % 4) ++
            (rest.map byteToNTs).flatten)).take (endN - start)) rec.nBlocks with
       | none => .error .indexPanic
       | some s1 =>
          match overlayBlocks (fun c => (c + 32) % 256) start endN s1 rec.mBlocks with
          | none => .error .indexPanic
          | some s2 => .ok s2) := by
    unfold readRangeCore
    dsimp only
    rw [hbr]
    rw [if_neg (by rw [← hbr, hwl]; omega)]
  have hOvN := overlayBlocks_char (fun _ => BASE_N) start endN hse rec.nBlocks _ hslen
  cases hovn : overlayBlocks (fun _ => BASE_N) start endN
      ((((byteToNTs b).drop (start % 4) ++
        (rest.map byteToNTs).flatten)).take (endN - start)) rec.nBlocks with
  | none =>
      exfalso
      obtain ⟨p, hp, hp1, hp2⟩ := hOvN.1.mp hovn
      have := hn p hp hp1
      omega
  | some s1 =>
      obtain ⟨hs1len, hs1get⟩ := hOvN.2 s1 hovn
      have hs1len2 : s1.length = endN - start := by rw [hs1len, hslen]
      have hOvM := overlayBlocks_char (fun c => (c + 32) % 256) start endN hse
        rec.mBlocks s1 hs1len2
      cases hovm : overlayBlocks (fun c => (c + 32) % 256) start endN s1 rec.mBlocks with
      | none =>
          exfalso
          obtain ⟨p, hp, hp1, hp2⟩ := hOvM.1.mp hovm
          have := hm p hp hp1
          omega
      | some s2 =>
          obtain ⟨hs2len, hs2get⟩ := hOvM.2 s2 hovm
          refine ⟨s2, ?_, ?_, ?_⟩
          · rw [hcore, hovn]
            dsimp only
            rw [hovm]
          · rw [hs2len, hs1len2]
          · intro j hj
            have hj1 : j < s1.length := by omega
            have hj0 : j < ((((byteToNTs b).drop (start % 4) ++
                (rest.map byteToNTs).flatten)).take (endN - start)).length := by
              rw [hslen]
              exact hj
            rw [hs2get j hj1, hs1get j hj0, hsymb j hj]
            unfold RRspec
            rw [const_iterate]



/-- For an in-bounds pair the range normalization is the identity and
ReadRange runs the core body on the given bounds. -/
lemma ReadRange_eq_core (rec : SeqRecord) (stream : List Nat) (start endN : Nat)
    (h1 : start < endN) (h2 : endN ≤ rec.dnaSize) :
    ReadRange rec stream (start : Int) (endN : Int) =
      readRangeCore rec stream start endN := by
  unfold ReadRange
  dsimp only
  split_ifs <;> first | (exfalso; omega) | (simp only [Int.toNat_natCast])

/-- On a record with at least one base, the full read runs the core
body on the bounds 0 and dnaSize. -/
lemma Read_eq_core (rec : SeqRecord) (stream : List Nat) (hpos : 1 ≤ rec.dnaSize) :
    Read rec stream = readRangeCore rec stream 0 rec.dnaSize := by
  unfold Read ReadRange
  dsimp only
  split_ifs <;>
    first | (exfalso; omega) | (simp only [Int.toNat_natCast, Int.toNat_zero])

/-- Two lists of equal length with equal getD values at every in-range
index are equal. -/
lemma ext_getD (l1 l2 : List Nat) (hlen : l1.length = l2.length)
    (h : ∀ j, j < l1.length → l1.getD j 0 = l2.getD j 0) : l1 = l2 := by
  apply List.ext_getElem?
  intro n
  by_cases hn : n < l1.length
  · rw [List.getElem?_eq_getElem hn, List.getElem?_eq_getElem (hlen ▸ hn)]
    have := h n hn
    simp only [List.getD_eq_getElem?_getD, List.getElem?_eq_getElem hn,
      List.getElem?_eq_getElem (hlen ▸ hn), Option.getD_some] at this
    rw [this]
  · rw [List.getElem?_eq_none (by omega), List.getElem?_eq_none (by omega)]



/-- On a record without blocks the pointwise range-read value is the
stored symbol itself. -/
lemma RRspec_no_blocks (d : Nat) (stream : List Nat) (k : Nat) :
    RRspec ⟨d, [], []⟩ stream k = symbolAt stream k := by
  unfold RRspec coverCount
  simp

/-- C3 (amended): for a record with no N or mask blocks whose packed
bytes encode dnaSize bases, and a valid pair start < end at most
dnaSize, ReadRange equals Unpack of the packed bytes at dnaSize sliced
to [start, end) PROVIDED the byte source (the packed bytes plus
whatever follows them in the file) holds at least shift + byteCount
bytes; the window can exceed packedSize dnaSize by one byte when start
is unaligned, and at end of file that one-byte over-read makes
ReadRange fail instead (the counterexample), so the claim holds only
under this stream-length hypothesis. -/
theorem c3_amended (dnaSize : Nat) (packed rest : List Nat) (start endN : Nat)
    (hp : packed.length = packedSize dnaSize)
    (h1 : start < endN) (h2 : endN ≤ dnaSize)
    (hfit : rangeShift start + rangeSize start (endN - start) ≤
      packed.length + rest.length) :
    ReadRange ⟨dnaSize, [], []⟩ (packed ++ rest) (start : Int) (endN : Int) =
      .ok (((Unpack packed dnaSize).drop start).take (endN - start)) := by
  obtain ⟨out, hout, hlen, hget⟩ :=
    readRangeCore_spec ⟨dnaSize, [], []⟩ (packed ++ rest) start endN h1
      (by rw [List.length_append]; exact hfit) (by simp) (by simp)
  rw [ReadRange_eq_core _ _ _ _ h1 h2, hout]
  congr 1
  have hJp : ((packed.map byteToNTs).flatten).length = 4 * packed.length :=
    flatten_map_length packed
  have hslice : (((Unpack packed dnaSize).drop start).take (endN - start)).length =
      endN - start := by
    unfold Unpack
    rw [List.length_take, List.length_drop, List.length_take]
    unfold packedSize at hp
    omega
  apply ext_getD out _ (by rw [hlen, hslice])
  intro j hj
  rw [hlen] at hj
  rw [hget j hj, RRspec_no_blocks]
  unfold symbolAt Unpack
  have hidx : start + j < 4 * packed.length := by
    unfold packedSize at hp
    omega
  simp only [List.getD_eq_getElem?_getD, List.getElem?_take, List.getElem?_drop,
    List.map_append, List.flatten_append]
  rw [if_pos hj, List.getElem?_append]
  rw [if_pos (show start + j < ((packed.map byteToNTs).flatten).length by omega),
    if_pos (show start + j < dnaSize by omega)]



/-- C1 (amended): for a valid pair start < end at most dnaSize,
ReadRange returns exactly the slice [start, end) of the full Read,
PROVIDED the stream covers both byte windows and no N or mask block
starts exactly at end (or exactly at dnaSize) with a positive count;
a block starting exactly at end triggers the out-of-range overlay
write (the counterexample), so the claim holds only under these
hypotheses. -/
theorem c1_amended (rec : SeqRecord) (stream : List Nat) (start endN : Nat)
    (h1 : start < endN) (h2 : endN ≤ rec.dnaSize)
    (hfitR : rangeShift start + rangeSize start (endN - start) ≤ stream.length)
    (hfitF : packedSize rec.dnaSize ≤ stream.length)
    (hblocks : ∀ p ∈ rec.nBlocks ++ rec.mBlocks,
      p.1 = endN ∨ p.1 = rec.dnaSize → p.2 = 0) :
    ∃ full, Read rec stream = .ok full ∧
      ReadRange rec stream (start : Int) (endN : Int) =
        .ok ((full.drop start).take (endN - start)) := by
  have hpos : 1 ≤ rec.dnaSize := by omega
  obtain ⟨full, hfull, hfullLen, hfullGet⟩ :=
    readRangeCore_spec rec stream 0 rec.dnaSize (by omega)
      (by
        unfold rangeShift rangeSize
        simpa using hfitF)
      (fun p hp h => hblocks p (List.mem_append_left _ hp) (Or.inr h))
      (fun p hp h => hblocks p (List.mem_append_right _ hp) (Or.inr h))
  obtain ⟨out, hout, houtLen, houtGet⟩ :=
    readRangeCore_spec rec stream start endN h1 hfitR
      (fun p hp h => hblocks p (List.mem_append_left _ hp) (Or.inl h))
      (fun p hp h => hblocks p (List.mem_append_right _ hp) (Or.inl h))
  refine ⟨full, by rw [Read_eq_core rec stream hpos, hfull], ?_⟩
  rw [ReadRange_eq_core rec stream start endN h1 h2, hout]
  congr 1
  have hsliceLen : ((full.drop start).take (endN - start)).length = endN - start := by
    rw [List.length_take, List.length_drop]
    omega
  apply ext_getD out _ (by rw [houtLen, hsliceLen])
  intro j hj
  rw [houtLen] at hj
  rw [houtGet j hj]
  have hjd : start + j < rec.dnaSize - 0 := by omega
  have hB : ((full.drop start).take (endN - start)).getD j 0 = full.getD (start + j) 0 := by
    simp only [List.getD_eq_getElem?_getD, List.getElem?_take, List.getElem?_drop,
      if_pos hj]
  rw [hB]
  have hC := hfullGet (start + j) hjd
  rw [hC, Nat.zero_add]


/-- C1 witness: on the 21-base example record with its three N blocks
and three mask blocks, the range read of [5, 11) is the slice of the
full read. -/
theorem c1_witness :
    ∃ full, Read ⟨21, [(9, 4), (14, 1), (16, 1)], [(3, 9), (13, 5), (19, 2)]⟩
        [147, 80, 0, 32, 39, 64] = .ok full ∧
      ReadRange ⟨21, [(9, 4), (14, 1), (16, 1)], [(3, 9), (13, 5), (19, 2)]⟩
          [147, 80, 0, 32, 39, 64] ((5 : Nat) : Int) ((11 : Nat) : Int) =
        .ok ((full.drop 5).take (11 - 5)) :=
  c1_amended ⟨21, [(9, 4), (14, 1), (16, 1)], [(3, 9), (13, 5), (19, 2)]⟩
    [147, 80, 0, 32, 39, 64] 5 11 (by decide) (by decide) (by decide) (by decide)
    (by decide)

/-- C3 witness: a block-free 21-base record, packed bytes followed by
nothing, range [5, 11). -/
theorem c3_witness :
    ReadRange ⟨21, [], []⟩ ([147, 80, 0, 32, 39, 64] ++ []) ((5 : Nat) : Int)
        ((11 : Nat) : Int) =
      .ok (((Unpack [147, 80, 0, 32, 39, 64] 21).drop 5).take (11 - 5)) :=
  c3_amended 21 [147, 80, 0, 32, 39, 64] [] 5 11 (by decide) (by decide) (by decide)
    (by decide)


/-- Two left-maximal all-matching runs that end at the same position
start at the same position. -/
lemma open_run_unique (s : List Nat) (check : Nat → Bool) (start i st len : Nat)
    (hsi : start < i)
    (hallopen : ∀ k, start ≤ k → k < i → check (s.getD k 0) = true)
    (hleftopen : start = 0 ∨ check (s.getD (start - 1) 0) = false)
    (hlen : 1 ≤ len) (hend : st + len = i)
    (hall : ∀ k, st ≤ k → k < st + len → check (s.getD k 0) = true)
    (hleft : st = 0 ∨ check (s.getD (st - 1) 0) = false) : st = start := by
  by_contra hne
  rcases Nat.lt_or_ge st start with hlt | hge
  · rcases hleftopen with h0 | hf
    · omega
    · have := hall (start - 1) (by omega) (by omega)
      rw [hf] at this
      exact Bool.noConfusion this
  · have hgt : st > start := by omega
    rcases hleft with h0 | hf
    · omega
    · have := hallopen (st - 1) (by omega) (by omega)
      rw [hf] at this
      exact Bool.noConfusion this

/-- No maximal run ends right before a position that satisfies the
predicate. -/
lemma no_run_ends_at_check (s : List Nat) (check : Nat → Bool) (i : Nat)
    (hi : i < s.length) (hci : check (s.getD i 0) = true) (st len : Nat)
    (hmax : IsMaxRun s check st len) : st + len ≠ i := by
  intro he
  obtain ⟨h1, h2, h3, h4, h5⟩ := hmax
  rcases h5 with h5 | h5
  · omega
  · rw [he, hci] at h5
    exact Bool.noConfusion h5

/-- No maximal run ends at a position whose predecessor fails the
predicate (or at position 0). -/
lemma no_run_ends_at_prev (s : List Nat) (check : Nat → Bool) (i : Nat)
    (hprev : i = 0 ∨ check (s.getD (i - 1) 0) = false) (st len : Nat)
    (hmax : IsMaxRun s check st len) : st + len ≠ i := by
  intro he
  obtain ⟨h1, h2, h3, h4, h5⟩ := hmax
  rcases hprev with h0 | hf
  · omega
  · have := h3 (i - 1) (by omega) (by omega)
    rw [hf] at this
    exact Bool.noConfusion this

/-- Invariant of the mapBlocks scan: with the emitted blocks holding
exactly the maximal runs closed before position i and the open-run
state sound, the final result holds exactly the maximal runs of the
whole sequence. -/
lemma mapBlocksAux_mem (s : List Nat) (check : Nat → Bool) :
    ∀ (l : List Nat) (i start : Nat) (isLast : Bool) (blocks : List (Nat × Nat)),
      s.drop i = l → i ≤ s.length →
      (isLast = true ↔ (1 ≤ i ∧ check (s.getD (i - 1) 0) = true)) →
      (isLast = true → (start < i ∧
        (∀ k, start ≤ k → k < i → check (s.getD k 0) = true) ∧
        (start = 0 ∨ check (s.getD (start - 1) 0) = false))) →
      (∀ st len, (st, len) ∈ blocks ↔ (IsMaxRun s check st len ∧ st + len < i)) →
      ∀ st len, (st, len) ∈ mapBlocksAux check l i start isLast blocks ↔
        IsMaxRun s check st len := by
  intro l
  induction l with
  | nil =>
      intro i start isLast blocks hdrop hile hLast hOpen hblocks st len
      have hieq : i = s.length := by
        have := List.drop_eq_nil_iff.mp hdrop
        omega
      subst hieq
      cases isLast with
      | false =>
          have hres : mapBlocksAux check [] s.length start false blocks = blocks := by
            simp [mapBlocksAux]
          rw [hres, hblocks st len]
          constructor
          · exact fun h => h.1
          · intro hmax
            refine ⟨hmax, ?_⟩
            have hprev : s.length = 0 ∨ check (s.getD (s.length - 1) 0) = false := by
              by_cases h0 : s.length = 0
              · exact Or.inl h0
              · right
                simp only [Bool.false_eq_true, false_iff, not_and] at hLast
                exact Bool.eq_false_iff.mpr (hLast (by omega))
            have hne := no_run_ends_at_prev s check s.length hprev st len hmax
            have h2 := hmax.2.1
            omega
      | true =>
          have hres : mapBlocksAux check [] s.length start true blocks =
              blocks ++ [(start, s.length - start)] := by
            simp [mapBlocksAux]
          rw [hres]
          obtain ⟨hsi, hall, hleft⟩ := hOpen rfl
          simp only [List.mem_append, List.mem_singleton, Prod.mk.injEq]
          rw [hblocks st len]
          constructor
          · rintro (⟨hmax, _⟩ | ⟨hst, hlen⟩)
            · exact hmax
            · refine ⟨by omega, by omega, fun k hk1 hk2 => hall k (by omega) (by omega),
                ?_, Or.inl (by omega)⟩
              rcases hleft with h0 | hf
              · exact Or.inl (by omega)
              · rw [hst]
                exact Or.inr hf
          · intro hmax
            by_cases hend : st + len = s.length
            · right
              have hst := open_run_unique s check start s.length st len hsi hall hleft
                hmax.1 hend hmax.2.2.1 hmax.2.2.2.1
              exact ⟨hst, by omega⟩
            · left
              have := hmax.2.1
              exact ⟨hmax, by omega⟩
  | cons c rest ih =>
      intro i start isLast blocks hdrop hile hLast hOpen hblocks st len
      have hi : i < s.length := by
        by_contra hno
        rw [List.drop_eq_nil_of_le (by omega)] at hdrop
        exact List.noConfusion hdrop
      have hc : s.getD i 0 = c := by
        have h0 : (s.drop i)[0]? = some c := by rw [hdrop]; simp
        rw [List.getElem?_drop] at h0
        simp only [List.getD_eq_getElem?_getD, Nat.add_zero] at h0 ⊢
        rw [h0]
        rfl
      have hrest : s.drop (i + 1) = rest := by
        have h1 : (s.drop i).drop 1 = s.drop (i + 1) := by
          rw [List.drop_drop]
        rw [← h1, hdrop]
        rfl
      have hLast2 : (check c = true) ↔
          (1 ≤ i + 1 ∧ check (s.getD (i + 1 - 1) 0) = true) := by
        simp only [Nat.add_sub_cancel, hc]
        constructor
        · intro h
          exact ⟨by omega, h⟩
        · exact fun h => h.2
      have hOpen2 : (check c = true) →
          ((if check c = true ∧ ¬isLast = true then i else start) < i + 1 ∧
           (∀ k, (if check c = true ∧ ¬isLast = true then i else start) ≤ k →
              k < i + 1 → check (s.getD k 0) = true) ∧
           ((if check c = true ∧ ¬isLast = true then i else start) = 0 ∨
            check (s.getD ((if check c = true ∧ ¬isLast = true then i else start) - 1) 0)
              = false)) := by
        intro hm
        by_cases hL : isLast = true
        · rw [if_neg (by simp [hL])]
          obtain ⟨hsi, hall, hleft⟩ := hOpen hL
          refine ⟨by omega, fun k hk1 hk2 => ?_, hleft⟩
          by_cases hki : k = i
          · rw [hki, hc]
            exact hm
          · exact hall k hk1 (by omega)
        · rw [if_pos ⟨hm, hL⟩]
          refine ⟨by omega, fun k hk1 hk2 => ?_, ?_⟩
          · have hk : k = i := by omega
            rw [hk, hc]
            exact hm
          · by_cases h0 : i = 0
            · exact Or.inl h0
            · right
              rw [Bool.not_eq_true] at hL
              rw [hL] at hLast
              simp only [Bool.false_eq_true, false_iff, not_and] at hLast
              exact Bool.eq_false_iff.mpr (hLast (by omega))
      have hblocks2 : ∀ st2 len2,
          (st2, len2) ∈ (if ¬check c = true ∧ isLast = true then
              blocks ++ [(start, i - start)] else blocks) ↔
            (IsMaxRun s check st2 len2 ∧ st2 + len2 < i + 1) := by
        intro st2 len2
        by_cases hm : check c = true
        · rw [if_neg (by simp [hm])]
          rw [hblocks st2 len2]
          constructor
          · rintro ⟨hmax, hlt⟩
            exact ⟨hmax, by omega⟩
          · rintro ⟨hmax, hlt⟩
            refine ⟨hmax, ?_⟩
            have hne := no_run_ends_at_check s check i hi (by rw [hc]; exact hm)
              st2 len2 hmax
            omega
        · by_cases hL : isLast = true
          · rw [if_pos ⟨hm, hL⟩]
            obtain ⟨hsi, hall, hleft⟩ := hOpen hL
            simp only [List.mem_append, List.mem_singleton, Prod.mk.injEq]
            rw [hblocks st2 len2]
            constructor
            · rintro (⟨hmax, _⟩ | ⟨hst, hlen⟩)
              · exact ⟨hmax, by omega⟩
              · refine ⟨⟨by omega, by omega, fun k hk1 hk2 => hall k (by omega) (by omega),
                  ?_, ?_⟩, by omega⟩
                · rcases hleft with h0 | hf
                  · exact Or.inl (by omega)
                  · rw [hst]
                    exact Or.inr hf
                · right
                  rw [show st2 + len2 = i from by omega, hc]
                  exact Bool.eq_false_iff.mpr hm
            · rintro ⟨hmax, hlt⟩
              by_cases hend : st2 + len2 = i
              · right
                have hst := open_run_unique s check start i st2 len2 hsi hall hleft
                  hmax.1 hend hmax.2.2.1 hmax.2.2.2.1
                exact ⟨hst, by omega⟩
              · exact Or.inl ⟨hmax, by omega⟩
          · rw [if_neg (by intro hcon; exact hL hcon.2)]
            rw [hblocks st2 len2]
            rw [Bool.not_eq_true] at hL
            rw [hL] at hLast
            simp only [Bool.false_eq_true, false_iff, not_and] at hLast
            constructor
            · rintro ⟨hmax, hlt⟩
              exact ⟨hmax, by omega⟩
            · rintro ⟨hmax, hlt⟩
              refine ⟨hmax, ?_⟩
              have hprev : i = 0 ∨ check (s.getD (i - 1) 0) = false := by
                by_cases h0 : i = 0
                · exact Or.inl h0
                · exact Or.inr (Bool.eq_false_iff.mpr (hLast (by omega)))
              have hne := no_run_ends_at_prev s check i hprev st2 len2 hmax
              omega
      have := ih (i + 1) (if check c = true ∧ ¬isLast = true then i else start)
        (check c)
        (if ¬check c = true ∧ isLast = true then blocks ++ [(start, i - start)]
          else blocks)
        hrest (by omega) hLast2 hOpen2 hblocks2 st len
      simpa only [mapBlocksAux] using this



/-- The mapBlocks scan only appends to the emitted block list. -/
lemma mapBlocksAux_mono (check : Nat → Bool) :
    ∀ (l : List Nat) (i start : Nat) (isLast : Bool) (blocks : List (Nat × Nat))
      (q : Nat × Nat), q ∈ blocks → q ∈ mapBlocksAux check l i start isLast blocks := by
  intro l
  induction l with
  | nil =>
      intro i start isLast blocks q hq
      cases isLast with
      | false => simpa [mapBlocksAux] using hq
      | true =>
          have hres : mapBlocksAux check [] i start true blocks =
              blocks ++ [(start, i - start)] := by
            simp [mapBlocksAux]
          rw [hres]
          exact List.mem_append_left _ hq
  | cons c rest ih =>
      intro i start isLast blocks q hq
      simp only [mapBlocksAux]
      apply ih
      split_ifs with h
      · exact List.mem_append_left _ hq
      · exact hq

/-- Invariant of the mapBlocks scan for coverage: every position
satisfying the predicate before i is covered by an emitted block or by
the open run, and every satisfying position of the sequence ends up
covered by some returned block. -/
lemma mapBlocksAux_cover (s : List Nat) (check : Nat → Bool) :
    ∀ (l : List Nat) (i start : Nat) (isLast : Bool) (blocks : List (Nat × Nat)),
      s.drop i = l →
      (isLast = true → start ≤ i) →
      (∀ k, k < i → check (s.getD k 0) = true →
        (∃ q ∈ blocks, q.1 ≤ k ∧ k < q.1 + q.2) ∨
          (isLast = true ∧ start ≤ k ∧ k < i)) →
      ∀ k, k < s.length → check (s.getD k 0) = true →
        ∃ q ∈ mapBlocksAux check l i start isLast blocks, q.1 ≤ k ∧ k < q.1 + q.2 := by
  intro l
  induction l with
  | nil =>
      intro i start isLast blocks hdrop hstart hcov k hk hck
      have hile : s.length ≤ i := by
        have := List.drop_eq_nil_iff.mp hdrop
        omega
      rcases hcov k (by omega) hck with ⟨q, hq, hcv⟩ | ⟨hL, h1, h2⟩
      · exact ⟨q, mapBlocksAux_mono check [] i start isLast blocks q hq, hcv⟩
      · rw [hL]
        have hres : mapBlocksAux check [] i start true blocks =
            blocks ++ [(start, i - start)] := by
          simp [mapBlocksAux]
        rw [hres]
        refine ⟨(start, i - start), List.mem_append_right _ (by simp), h1, ?_⟩
        have := hstart hL
        dsimp only
        omega
  | cons c rest ih =>
      intro i start isLast blocks hdrop hstart hcov k hk hck
      have hi : i < s.length := by
        by_contra hno
        rw [List.drop_eq_nil_of_le (by omega)] at hdrop
        exact List.noConfusion hdrop
      have hc : s.getD i 0 = c := by
        have h0 : (s.drop i)[0]? = some c := by rw [hdrop]; simp
        rw [List.getElem?_drop] at h0
        simp only [List.getD_eq_getElem?_getD, Nat.add_zero] at h0 ⊢
        rw [h0]
        rfl
      have hrest : s.drop (i + 1) = rest := by
        have h1 : (s.drop i).drop 1 = s.drop (i + 1) := by
          rw [List.drop_drop]
        rw [← h1, hdrop]
        rfl
      simp only [mapBlocksAux]
      apply ih (i + 1) _ _ _ hrest
      · intro hm
        split_ifs with hcond
        · omega
        · by_cases hL : isLast = true
          · have := hstart hL
            omega
          · exfalso
            rw [Bool.not_eq_true] at hL
            rw [hL] at hcond
            rw [hm] at hcond
            simp at hcond
      · intro k2 hk2 hck2
        by_cases hk2i : k2 = i
        · -- position i matches: check c = true
          have hm : check c = true := by rw [← hc, ← hk2i]; exact hck2
          right
          refine ⟨by rw [hm], ?_, by omega⟩
          split_ifs with hcond
          · omega
          · -- check c true, so hcond false means isLast = true
            by_cases hL : isLast = true
            · have := hstart hL
              omega
            · exfalso
              rw [Bool.not_eq_true] at hL
              rw [hL] at hcond
              rw [hm] at hcond
              simp at hcond
        · rcases hcov k2 (by omega) hck2 with ⟨q, hq, hcv⟩ | ⟨hL, h1, h2⟩
          · left
            refine ⟨q, ?_, hcv⟩
            split_ifs with hcond
            · exact List.mem_append_left _ hq
            · exact hq
          · -- covered by the open run
            by_cases hm : check c = true
            · right
              rw [hL]
              refine ⟨by rw [hm], ?_, by omega⟩
              rw [if_neg (by simp [hm])]
              omega
            · left
              rw [if_pos ⟨by rw [Bool.not_eq_true] at hm ⊢; exact hm, hL⟩]
              refine ⟨(start, i - start), List.mem_append_right _ (by simp), h1, ?_⟩
              dsimp only
              omega
      · exact hk
      · exact hck



/-- C9: mapBlocks returns exactly the maximal runs of the predicate: a
pair (start, length) is returned exactly when it is a nonempty run of
matching positions whose neighbours (when inside the sequence) fail
the predicate, including runs reaching the end of the sequence;
moreover every matching position is covered by some returned block,
Writer.Add builds nBlocks with the N-or-n predicate and mBlocks with
the lowercase predicate, and hence a lowercase n position is covered
by a block of both sets of the record Add stores. -/
theorem c9_mapBlocks (s : List Nat) (check : Nat → Bool) :
    (∀ st len, (st, len) ∈ mapBlocks s check ↔ IsMaxRun s check st len) ∧
    (∀ k, k < s.length → check (s.getD k 0) = true →
      ∃ q ∈ mapBlocks s check, q.1 ≤ k ∧ k < q.1 + q.2) ∧
    (∀ seq rec p, AddRecord seq = some (rec, p) →
      rec.nBlocks = mapBlocks seq isNn ∧ rec.mBlocks = mapBlocks seq isLowercase) ∧
    (∀ seq rec p k, AddRecord seq = some (rec, p) → k < seq.length →
      seq.getD k 0 = 110 →
      ((∃ q ∈ rec.nBlocks, q.1 ≤ k ∧ k < q.1 + q.2) ∧
       (∃ q ∈ rec.mBlocks, q.1 ≤ k ∧ k < q.1 + q.2))) := by
  have hAdd : ∀ (seq : List Nat) (rec : SeqRecord) (p : List Nat),
      AddRecord seq = some (rec, p) →
      rec.nBlocks = mapBlocks seq isNn ∧ rec.mBlocks = mapBlocks seq isLowercase := by
    intro seq rec p h
    unfold AddRecord at h
    cases hp : Pack seq <;> rw [hp] at h
    · exact absurd h (by simp)
    · simp only [Option.some.injEq, Prod.mk.injEq] at h
      rw [← h.1]
      exact ⟨rfl, rfl⟩
  have hcover : ∀ (s2 : List Nat) (check2 : Nat → Bool) (k : Nat), k < s2.length →
      check2 (s2.getD k 0) = true →
      ∃ q ∈ mapBlocks s2 check2, q.1 ≤ k ∧ k < q.1 + q.2 := by
    intro s2 check2 k hk hck
    exact mapBlocksAux_cover s2 check2 s2 0 0 false [] rfl (by simp)
      (fun k2 hk2 _ => absurd hk2 (by omega)) k hk hck
  refine ⟨?_, hcover s check, hAdd, ?_⟩
  · intro st len
    exact mapBlocksAux_mem s check s 0 0 false [] rfl (by omega) (by simp)
      (by simp)
      (by
        intro st2 len2
        constructor
        · intro h
          exact absurd h (List.not_mem_nil _)
        · rintro ⟨_, h⟩
          omega) st len
  · intro seq rec p k h hk hval
    obtain ⟨hn, hm⟩ := hAdd seq rec p h
    constructor
    · rw [hn]
      exact hcover seq isNn k hk (by rw [hval]; decide)
    · rw [hm]
      exact hcover seq isLowercase k hk (by rw [hval]; decide)


end Twobit
